import Mathlib

/-!
A shallow embedding of the discretization and sparse-assembly engine of
`src/cli/multigrid/solver.cpp`, together with theorems settling the frozen
claims about it.

Modelling conventions:
* C++ `double`/`float` arithmetic is idealized as exact rational arithmetic (`ℚ`).
* Grid sizes `nx`, `ny` are natural numbers (the spec's data-model invariant is
  `nx, ny ≥ 1`); loop indices and flat ids are integers, as in the source.
* The Eigen triplet list becomes a `List (ℤ × ℤ × ℚ)` of `(row, col, value)`
  entries, appended in source order; the rhs vector `b` becomes a total function
  `ℤ → ℚ`, zero-initialized.  In addition the state carries `bwrites`, a ghost
  trace of every index written into `b`, used only to state the memory-safety
  claim about rhs accesses.
-/

namespace MultigridSolver

/-- One circular inclusion, a row `(x_offset, y_offset, radius, voltage)` of the
`circles` matrix read from the properties file. -/
structure Circle where
  cx : ℚ
  cy : ℚ
  radius : ℚ
  voltage : ℚ
deriving DecidableEq

/-- The already-parsed configuration: grid sizes `ic(0,0), ic(0,1)`, extents
`ic(1,0), ic(1,1), ic(2,0), ic(2,1)`, the four box boundary voltages
`bc_grid(0..3)` (up, down, left, right), and the inclusion list. -/
structure Config where
  nx : ℕ
  ny : ℕ
  xmin : ℚ
  xmax : ℚ
  ymin : ℚ
  ymax : ℚ
  bcUp : ℚ
  bcDown : ℚ
  bcLeft : ℚ
  bcRight : ℚ
  circles : List Circle
deriving DecidableEq

/-- The flat index `id = i + j*nx` used throughout `solver.cpp`
(`int id1 = i+j*ic(0,0);` and `int id = i+j*ic(0,0);`). -/
def flatId (nx : ℕ) (i j : ℤ) : ℤ := i + j * (nx : ℤ)

/-- `double dx = (ic(1,1)-ic(1,0))/((double)ic(0,0));` -/
def gridDx (cfg : Config) : ℚ := (cfg.xmax - cfg.xmin) / (cfg.nx : ℚ)

/-- `double dy = (ic(2,1)-ic(2,0))/((double)ic(0,1));` -/
def gridDy (cfg : Config) : ℚ := (cfg.ymax - cfg.ymin) / (cfg.ny : ℚ)

/-- The body of the loop test in `circularConditionsCheck`:
`pow(((ic(1,0)+i*dx)-circles(k,0)),2) + pow(((ic(2,0)+j*dy)-circles(k,1)),2)
 <= pow(circles(k,2),2)`. -/
def inCircleTest (cfg : Config) (i j : ℤ) (c : Circle) : Bool :=
  decide ((cfg.xmin + (i : ℚ) * gridDx cfg - c.cx) ^ 2 +
      (cfg.ymin + (j : ℚ) * gridDy cfg - c.cy) ^ 2 ≤ c.radius ^ 2)

/-- The `for(current_circle=0; ...)` loop of `circularConditionsCheck`:
returns `(true, k)` at the first circle whose test succeeds, else `(false, 0)`.
The accumulator `k` is the running value of `current_circle`. -/
def ccLoop (cfg : Config) (i j : ℤ) : List Circle → ℕ → Bool × ℕ
  | [], _ => (false, 0)
  | c :: rest, k => if inCircleTest cfg i j c then (true, k) else ccLoop cfg i j rest (k + 1)

/-- `std::pair<bool,int> circularConditionsCheck(int i, int j, ...)`. -/
def circularConditionsCheck (cfg : Config) (i j : ℤ) : Bool × ℕ :=
  ccLoop cfg i j cfg.circles 0

/-- `circles(k,3)`: the voltage of the `k`-th circle (always called in bounds). -/
def voltageOf (cs : List Circle) (k : ℕ) : ℚ := (cs.getD k ⟨0, 0, 0, 0⟩).voltage

/-- The guarded classification used at both call sites:
`if(circles.size() != 0) isCircle = circularConditionsCheck(i, j, circles, ic);
 else isCircle = std::make_pair(false, 0);`. -/
def isCircleAt (cfg : Config) (i j : ℤ) : Bool × ℕ :=
  if cfg.circles.isEmpty then (false, 0) else circularConditionsCheck cfg i j

/-- The mutable assembly state: the triplet list `coefficients`, the rhs vector
`b`, and a ghost trace `bwrites` of every index at which `b` was written. -/
structure AsmState where
  coeffs : List (ℤ × ℤ × ℚ)
  b : ℤ → ℚ
  bwrites : List ℤ

/-- A single write `b(t) = v`, recorded in the ghost trace. -/
def updateB (s : AsmState) (t : ℤ) (v : ℚ) : AsmState :=
  { s with b := fun t' => if t' = t then v else s.b t', bwrites := s.bwrites ++ [t] }

/-- `void insertCoefficient(int id, int i, int j, double w, ...)`: the
neighbor-resolution rule, with its source if/else-if chain kept verbatim. -/
def insertCoefficient (cfg : Config) (id i j : ℤ) (w : ℚ) (s : AsmState) : AsmState :=
  let id1 := flatId cfg.nx i j
  let isCircle := isCircleAt cfg i j
  if i = -1 then updateB s id (s.b id - w * cfg.bcLeft)
  else if i = (cfg.nx : ℤ) then updateB s id (s.b id - w * cfg.bcRight)
  else if j = -1 then updateB s id (s.b id - w * cfg.bcUp)
  else if j = (cfg.ny : ℤ) then updateB s id (s.b id - w * cfg.bcDown)
  else if isCircle.1 then updateB s id (s.b id - w * voltageOf cfg.circles isCircle.2)
  else { s with coeffs := s.coeffs ++ [(id, id1, w)] }

/-- The body of the double loop of `buildProblem` for one grid point `(i,j)`:
the inclusion-pinning check followed (when not pinned) by the five
`insertCoefficient` calls, in source order. -/
def pointStep (cfg : Config) (i j : ℤ) (s : AsmState) : AsmState :=
  let id := flatId cfg.nx i j
  if (isCircleAt cfg i j).1 then
    updateB { s with coeffs := s.coeffs ++ [(id, id, 1)] } id
      (voltageOf cfg.circles (isCircleAt cfg i j).2)
  else
    insertCoefficient cfg id i j 4
      (insertCoefficient cfg id i (j + 1) (-1)
        (insertCoefficient cfg id i (j - 1) (-1)
          (insertCoefficient cfg id (i + 1) j (-1)
            (insertCoefficient cfg id (i - 1) j (-1) s))))

/-- The state on entry to `buildProblem`: empty triplet list and `b.setZero()`. -/
def initState : AsmState := { coeffs := [], b := fun _ => 0, bwrites := [] }

/-- `void buildProblem(...)`: the double loop
`for(int j=0; j<ic(0,1); ++j) for(int i=0; i<ic(0,0); ++i)` over `pointStep`. -/
def buildProblem (cfg : Config) : AsmState :=
  (List.range cfg.ny).foldl
    (fun s (j : ℕ) =>
      (List.range cfg.nx).foldl (fun s (i : ℕ) => pointStep cfg (i : ℤ) (j : ℤ) s) s)
    initState

/-- The output reshape in `main`: `result(j,i) = x(i + j*x_grid_size)`. -/
def reshape (nx : ℕ) (sol : ℤ → ℚ) (j i : ℕ) : ℚ := sol (flatId nx (i : ℤ) (j : ℤ))

/-- The row of the assembled system belonging to flat index `id`: all emitted
triplets whose row component is `id`. -/
def rowOf (cfg : Config) (id : ℤ) : List (ℤ × ℤ × ℚ) :=
  (buildProblem cfg).coeffs.filter fun t => t.1 = id

/-- Spec-side classifier, written from the spec's words (§4.2): compute
`x = xmin + i*dx`, `y = ymin + j*dy` with `dx = (xmax-xmin)/nx`,
`dy = (ymax-ymin)/ny`, and return the first inclusion index `k` with
`(x-x_k)^2 + (y-y_k)^2 <= radius_k^2` (boundary counts as inside), or
"not inside any" when none matches. -/
def specClassify (cfg : Config) (i j : ℤ) : Bool × ℕ :=
  let dx := (cfg.xmax - cfg.xmin) / (cfg.nx : ℚ)
  let dy := (cfg.ymax - cfg.ymin) / (cfg.ny : ℚ)
  let x := cfg.xmin + (i : ℚ) * dx
  let y := cfg.ymin + (j : ℚ) * dy
  match cfg.circles.findIdx?
      (fun c => decide ((x - c.cx) ^ 2 + (y - c.cy) ^ 2 ≤ c.radius ^ 2)) with
  | some k => (true, k)
  | none => (false, 0)

/-- The contribution of a single `insertCoefficient` call to the triplet list:
one triplet when the final branch is reached, nothing when the call resolves a
boundary or inclusion neighbor into the rhs. -/
def neighborEmit (cfg : Config) (id i j : ℤ) (w : ℚ) : List (ℤ × ℤ × ℚ) :=
  if i = -1 ∨ i = (cfg.nx : ℤ) ∨ j = -1 ∨ j = (cfg.ny : ℤ) ∨ (isCircleAt cfg i j).1 = true
  then []
  else [(id, flatId cfg.nx i j, w)]

/-- The triplets contributed by one grid point `(i,j)` of the assembly loop. -/
def pointCoeffs (cfg : Config) (i j : ℤ) : List (ℤ × ℤ × ℚ) :=
  let id := flatId cfg.nx i j
  if (isCircleAt cfg i j).1 then [(id, id, 1)]
  else
    neighborEmit cfg id (i - 1) j (-1) ++ neighborEmit cfg id (i + 1) j (-1) ++
      neighborEmit cfg id i (j - 1) (-1) ++ neighborEmit cfg id i (j + 1) (-1) ++
      neighborEmit cfg id i j 4

/-- The rhs write performed by a single `insertCoefficient` call: branches
(a)–(e) write once at the center id, the triplet-emitting branch writes
nothing. -/
def neighborWrite (cfg : Config) (id i j : ℤ) : List ℤ :=
  if i = -1 ∨ i = (cfg.nx : ℤ) ∨ j = -1 ∨ j = (cfg.ny : ℤ) ∨ (isCircleAt cfg i j).1 = true
  then [id]
  else []

/-- The indices written into `b` by one grid point of the assembly loop: the
pinning branch writes once, and each of the five `insertCoefficient` calls
writes at most once, always at the point's own flat id. -/
def pointWrites (cfg : Config) (i j : ℤ) : List ℤ :=
  let id := flatId cfg.nx i j
  if (isCircleAt cfg i j).1 then [id]
  else
    neighborWrite cfg id (i - 1) j ++ neighborWrite cfg id (i + 1) j ++
      neighborWrite cfg id i (j - 1) ++ neighborWrite cfg id i (j + 1) ++
      neighborWrite cfg id i j

/-- The list of grid points visited by `buildProblem`, in loop order
(`j` outer, `i` inner). -/
def gridPoints (cfg : Config) : List (ℤ × ℤ) :=
  (List.range cfg.ny).flatMap fun (j : ℕ) =>
    (List.range cfg.nx).map fun (i : ℕ) => ((i : ℤ), (j : ℤ))

/-- Running the per-point loop body over an explicit list of grid points. -/
def runPoints (cfg : Config) (ps : List (ℤ × ℤ)) (s : AsmState) : AsmState :=
  ps.foldl (fun s p => pointStep cfg p.1 p.2 s) s

section StructuralLemmas

variable {cfg : Config} {s : AsmState} {id i j t : ℤ} {w : ℚ}

lemma flatId_bounds {nx ny : ℕ} (h0 : 0 ≤ i) (h1 : i < (nx : ℤ)) (h2 : 0 ≤ j)
    (h3 : j < (ny : ℤ)) :
    0 ≤ flatId nx i j ∧ flatId nx i j < (nx : ℤ) * (ny : ℤ) := by
  unfold flatId
  have hnx : (0 : ℤ) ≤ (nx : ℤ) := Int.natCast_nonneg _
  constructor
  · have : 0 ≤ j * (nx : ℤ) := mul_nonneg h2 hnx
    linarith
  · have hj : j ≤ (ny : ℤ) - 1 := by omega
    have : j * (nx : ℤ) ≤ ((ny : ℤ) - 1) * (nx : ℤ) :=
      mul_le_mul_of_nonneg_right hj hnx
    nlinarith

lemma flatId_inj {nx ny : ℕ} {i' j' : ℤ} (h0 : 0 ≤ i) (h1 : i < (nx : ℤ)) (h2 : 0 ≤ j)
    (h3 : j < (ny : ℤ)) (h0' : 0 ≤ i') (h1' : i' < (nx : ℤ)) (h2' : 0 ≤ j')
    (h3' : j' < (ny : ℤ)) (h : flatId nx i j = flatId nx i' j') :
    i = i' ∧ j = j' := by
  have hmi : flatId nx i j % (nx : ℤ) = i := by
    unfold flatId; rw [Int.add_mul_emod_self, Int.emod_eq_of_lt h0 h1]
  have hmi' : flatId nx i' j' % (nx : ℤ) = i' := by
    unfold flatId; rw [Int.add_mul_emod_self, Int.emod_eq_of_lt h0' h1']
  have hii : i = i' := by rw [← hmi, ← hmi', h]
  refine ⟨hii, ?_⟩
  have hnx : (0 : ℤ) < (nx : ℤ) := lt_of_le_of_lt h0 h1
  have hjj : j * (nx : ℤ) = j' * (nx : ℤ) := by
    have := h; unfold flatId at this; omega
  exact mul_right_cancel₀ (ne_of_gt hnx) hjj

lemma flatId_surj {nx ny : ℕ} {d : ℤ} (h0 : 0 ≤ d) (h1 : d < (nx : ℤ) * (ny : ℤ)) :
    ∃ i j : ℤ, 0 ≤ i ∧ i < (nx : ℤ) ∧ 0 ≤ j ∧ j < (ny : ℤ) ∧
      flatId nx i j = d := by
  have hnx : (0 : ℤ) < (nx : ℤ) := by
    rcases Nat.eq_zero_or_pos nx with h | h
    · rw [h] at h1; simp at h1; omega
    · exact_mod_cast h
  refine ⟨d % (nx : ℤ), d / (nx : ℤ), Int.emod_nonneg d (ne_of_gt hnx),
    Int.emod_lt_of_pos d hnx, Int.ediv_nonneg h0 (le_of_lt hnx), ?_, ?_⟩
  · rw [Int.ediv_lt_iff_lt_mul hnx]; linarith [h1, mul_comm (nx : ℤ) (ny : ℤ)]
  · unfold flatId; linarith [Int.ediv_add_emod d (nx : ℤ)]

lemma mem_gridPoints {a b : ℤ} :
    (a, b) ∈ gridPoints cfg ↔
      0 ≤ a ∧ a < (cfg.nx : ℤ) ∧ 0 ≤ b ∧ b < (cfg.ny : ℤ) := by
  unfold gridPoints
  rw [List.mem_flatMap]
  constructor
  · rintro ⟨j, hj, hm⟩
    rw [List.mem_map] at hm
    obtain ⟨i, hi, h⟩ := hm
    rw [List.mem_range] at hj hi
    cases h
    constructor
    · omega
    constructor
    · omega
    constructor
    · omega
    · omega
  · rintro ⟨h0, h1, h2, h3⟩
    refine ⟨b.toNat, List.mem_range.mpr (by omega), ?_⟩
    rw [List.mem_map]
    refine ⟨a.toNat, List.mem_range.mpr (by omega), ?_⟩
    rw [Int.toNat_of_nonneg h0, Int.toNat_of_nonneg h2]

lemma gridPoints_nodup : (gridPoints cfg).Nodup := by
  unfold gridPoints
  rw [List.nodup_flatMap]
  constructor
  · intro j _
    refine List.Nodup.map ?_ (List.nodup_range _)
    intro a b hab
    injection hab with h1 h2
    exact_mod_cast h1
  · refine List.Pairwise.imp_of_mem ?_ (List.nodup_range cfg.ny)
    intro a b _ _ hab x hxa hxb
    rw [List.mem_map] at hxa hxb
    obtain ⟨i, _, rfl⟩ := hxa
    obtain ⟨i', _, h⟩ := hxb
    injection h with h1 h2
    exact hab (by exact_mod_cast h2.symm)

lemma gridPoints_pairwise_ids :
    (gridPoints cfg).Pairwise
      (fun p q => flatId cfg.nx p.1 p.2 ≠ flatId cfg.nx q.1 q.2) := by
  refine List.Pairwise.imp_of_mem ?_ gridPoints_nodup
  rintro ⟨a, b⟩ ⟨a', b'⟩ hm hm' hne hid
  rw [mem_gridPoints] at hm hm'
  obtain ⟨rfl, rfl⟩ :=
    flatId_inj hm.1 hm.2.1 hm.2.2.1 hm.2.2.2 hm'.1 hm'.2.1 hm'.2.2.1 hm'.2.2.2 hid
  exact hne rfl

lemma updateB_coeffs (v : ℚ) : (updateB s t v).coeffs = s.coeffs := rfl

lemma insertCoefficient_coeffs :
    (insertCoefficient cfg id i j w s).coeffs = s.coeffs ++ neighborEmit cfg id i j w := by
  unfold insertCoefficient neighborEmit
  split_ifs with h1 h2 h3 h4 h5 h6 <;> simp_all [updateB]

lemma insertCoefficient_bwrites :
    (insertCoefficient cfg id i j w s).bwrites = s.bwrites ++ neighborWrite cfg id i j := by
  unfold insertCoefficient neighborWrite
  split_ifs with h1 h2 h3 h4 h5 h6 <;> simp_all [updateB]

lemma insertCoefficient_b_ne (h : t ≠ id) :
    (insertCoefficient cfg id i j w s).b t = s.b t := by
  unfold insertCoefficient
  simp only [updateB]
  split_ifs <;> simp [h]

lemma pointStep_coeffs :
    (pointStep cfg i j s).coeffs = s.coeffs ++ pointCoeffs cfg i j := by
  unfold pointStep pointCoeffs
  split_ifs with h
  · simp [updateB]
  · simp only [insertCoefficient_coeffs, List.append_assoc]

lemma pointStep_bwrites :
    (pointStep cfg i j s).bwrites = s.bwrites ++ pointWrites cfg i j := by
  unfold pointStep pointWrites
  split_ifs with h
  · simp [updateB]
  · simp only [insertCoefficient_bwrites, List.append_assoc]

lemma pointStep_b_ne (h : t ≠ flatId cfg.nx i j) :
    (pointStep cfg i j s).b t = s.b t := by
  unfold pointStep
  split_ifs with hp
  · simp [updateB, h]
  · simp only [insertCoefficient_b_ne h]

lemma pointStep_b_pinned (h : (isCircleAt cfg i j).1 = true) :
    (pointStep cfg i j s).b (flatId cfg.nx i j) =
      voltageOf cfg.circles (isCircleAt cfg i j).2 := by
  unfold pointStep
  rw [if_pos h]
  simp [updateB]

lemma runPoints_coeffs (ps : List (ℤ × ℤ)) :
    ∀ s, (runPoints cfg ps s).coeffs =
      s.coeffs ++ ps.flatMap fun p => pointCoeffs cfg p.1 p.2 := by
  induction ps with
  | nil => intro s; simp [runPoints]
  | cons p ps ih =>
      intro s
      simp only [runPoints, List.foldl_cons, List.flatMap_cons] at *
      rw [ih, pointStep_coeffs, List.append_assoc]

lemma runPoints_bwrites (ps : List (ℤ × ℤ)) :
    ∀ s, (runPoints cfg ps s).bwrites =
      s.bwrites ++ ps.flatMap fun p => pointWrites cfg p.1 p.2 := by
  induction ps with
  | nil => intro s; simp [runPoints]
  | cons p ps ih =>
      intro s
      simp only [runPoints, List.foldl_cons, List.flatMap_cons] at *
      rw [ih, pointStep_bwrites, List.append_assoc]

lemma runPoints_b_ne (ps : List (ℤ × ℤ)) :
    ∀ s, (∀ p ∈ ps, flatId cfg.nx p.1 p.2 ≠ t) → (runPoints cfg ps s).b t = s.b t := by
  induction ps with
  | nil => intro s _; simp [runPoints]
  | cons p ps ih =>
      intro s hps
      simp only [runPoints, List.foldl_cons] at *
      rw [ih _ fun q hq => hps q (List.mem_cons_of_mem _ hq),
        pointStep_b_ne (Ne.symm (hps p (List.mem_cons_self _ _)))]

lemma buildProblem_eq_runPoints :
    buildProblem cfg = runPoints cfg (gridPoints cfg) initState := by
  unfold buildProblem runPoints gridPoints
  rw [List.flatMap_def, List.foldl_flatten, List.foldl_map]
  simp only [List.foldl_map]

lemma buildProblem_coeffs :
    (buildProblem cfg).coeffs = (gridPoints cfg).flatMap fun p => pointCoeffs cfg p.1 p.2 := by
  rw [buildProblem_eq_runPoints, runPoints_coeffs]
  rfl

lemma buildProblem_bwrites :
    (buildProblem cfg).bwrites = (gridPoints cfg).flatMap fun p => pointWrites cfg p.1 p.2 := by
  rw [buildProblem_eq_runPoints, runPoints_bwrites]
  rfl

lemma mem_buildProblem_coeffs {u : ℤ × ℤ × ℚ} :
    u ∈ (buildProblem cfg).coeffs ↔
      ∃ p ∈ gridPoints cfg, u ∈ pointCoeffs cfg p.1 p.2 := by
  rw [buildProblem_coeffs, List.mem_flatMap]

lemma isCircleAt_of_ne (hne : cfg.circles ≠ []) :
    isCircleAt cfg i j = circularConditionsCheck cfg i j := by
  unfold isCircleAt
  rw [if_neg]
  simp [List.isEmpty_iff, hne]

lemma mem_neighborEmit {u : ℤ × ℤ × ℚ} :
    u ∈ neighborEmit cfg id i j w ↔
      ¬(i = -1 ∨ i = (cfg.nx : ℤ) ∨ j = -1 ∨ j = (cfg.ny : ℤ) ∨
          (isCircleAt cfg i j).1 = true) ∧
        u = (id, flatId cfg.nx i j, w) := by
  unfold neighborEmit
  split_ifs with hc <;> simp [hc]

lemma pointCoeffs_structure {a b : ℤ} {u : ℤ × ℤ × ℚ} (hu : u ∈ pointCoeffs cfg a b) :
    u.1 = flatId cfg.nx a b ∧
      (u.2.1 = flatId cfg.nx a b ∨
        ((isCircleAt cfg a b).1 = false ∧ ∃ ni nj : ℤ,
          ((ni = a - 1 ∧ nj = b) ∨ (ni = a + 1 ∧ nj = b) ∨ (ni = a ∧ nj = b - 1) ∨
            (ni = a ∧ nj = b + 1)) ∧
          ni ≠ -1 ∧ ni ≠ (cfg.nx : ℤ) ∧ nj ≠ -1 ∧ nj ≠ (cfg.ny : ℤ) ∧
          (isCircleAt cfg ni nj).1 = false ∧
          u = (flatId cfg.nx a b, flatId cfg.nx ni nj, -1))) := by
  unfold pointCoeffs at hu
  split_ifs at hu with hpin
  · rw [List.mem_singleton] at hu
    subst hu
    exact ⟨rfl, Or.inl rfl⟩
  · have hnp : (isCircleAt cfg a b).1 = false := Bool.not_eq_true _ ▸ eq_false_of_ne_true hpin
    simp only [List.mem_append] at hu
    rcases hu with ((((hu | hu) | hu) | hu) | hu) <;>
      obtain ⟨hcond, rfl⟩ := mem_neighborEmit.mp hu <;> push_neg at hcond
    · exact ⟨rfl, Or.inr ⟨hnp, a - 1, b, Or.inl ⟨rfl, rfl⟩, hcond.1, hcond.2.1, hcond.2.2.1,
        hcond.2.2.2.1, Bool.not_eq_true _ ▸ eq_false_of_ne_true hcond.2.2.2.2, rfl⟩⟩
    · exact ⟨rfl, Or.inr ⟨hnp, a + 1, b, Or.inr (Or.inl ⟨rfl, rfl⟩), hcond.1, hcond.2.1,
        hcond.2.2.1, hcond.2.2.2.1, Bool.not_eq_true _ ▸ eq_false_of_ne_true hcond.2.2.2.2, rfl⟩⟩
    · exact ⟨rfl, Or.inr ⟨hnp, a, b - 1, Or.inr (Or.inr (Or.inl ⟨rfl, rfl⟩)), hcond.1, hcond.2.1,
        hcond.2.2.1, hcond.2.2.2.1, Bool.not_eq_true _ ▸ eq_false_of_ne_true hcond.2.2.2.2, rfl⟩⟩
    · exact ⟨rfl, Or.inr ⟨hnp, a, b + 1, Or.inr (Or.inr (Or.inr ⟨rfl, rfl⟩)), hcond.1, hcond.2.1,
        hcond.2.2.1, hcond.2.2.2.1, Bool.not_eq_true _ ▸ eq_false_of_ne_true hcond.2.2.2.2, rfl⟩⟩
    · exact ⟨rfl, Or.inl rfl⟩

lemma pointCoeffs_row {a b : ℤ} : ∀ u ∈ pointCoeffs cfg a b, u.1 = flatId cfg.nx a b :=
  fun _ hu => (pointCoeffs_structure hu).1

lemma pointWrites_sub {a b : ℤ} : ∀ u ∈ pointWrites cfg a b, u = flatId cfg.nx a b := by
  unfold pointWrites neighborWrite
  split_ifs <;> intro u hu <;> simp_all

lemma filter_flatMap_row (ps : List (ℤ × ℤ))
    (hpw : ps.Pairwise fun p q => flatId cfg.nx p.1 p.2 ≠ flatId cfg.nx q.1 q.2)
    {p : ℤ × ℤ} (hp : p ∈ ps) :
    ((ps.flatMap fun q => pointCoeffs cfg q.1 q.2).filter
        fun u => u.1 = flatId cfg.nx p.1 p.2) =
      pointCoeffs cfg p.1 p.2 := by
  induction ps with
  | nil => cases hp
  | cons q ps ih =>
      rw [List.flatMap_cons, List.filter_append]
      obtain ⟨hq, hpw'⟩ := List.pairwise_cons.mp hpw
      rcases List.mem_cons.mp hp with rfl | hp'
      · rw [List.filter_eq_self.mpr, List.filter_eq_nil_iff.mpr, List.append_nil]
        · intro u hu
          rw [List.mem_flatMap] at hu
          obtain ⟨r, hr, hur⟩ := hu
          simp [pointCoeffs_row u hur, (hq r hr).symm]
        · intro u hu
          simp [pointCoeffs_row u hu]
      · rw [List.filter_eq_nil_iff.mpr, List.nil_append, ih hpw' hp']
        intro u hu
        simp [pointCoeffs_row u hu, hq p hp']

lemma rowOf_eq_pointCoeffs {a b : ℤ} (h : (a, b) ∈ gridPoints cfg) :
    rowOf cfg (flatId cfg.nx a b) = pointCoeffs cfg a b := by
  unfold rowOf
  rw [buildProblem_coeffs]
  exact filter_flatMap_row _ gridPoints_pairwise_ids h

lemma buildProblem_b_pinned {a b : ℤ} (h : (a, b) ∈ gridPoints cfg)
    (hpin : (isCircleAt cfg a b).1 = true) :
    (buildProblem cfg).b (flatId cfg.nx a b) =
      voltageOf cfg.circles (isCircleAt cfg a b).2 := by
  rw [buildProblem_eq_runPoints]
  obtain ⟨l1, l2, hsplit⟩ := List.append_of_mem h
  have hpw : (l1 ++ (a, b) :: l2).Pairwise
      (fun p q => flatId cfg.nx p.1 p.2 ≠ flatId cfg.nx q.1 q.2) :=
    hsplit ▸ gridPoints_pairwise_ids
  have h2 : ∀ q ∈ l2, flatId cfg.nx q.1 q.2 ≠ flatId cfg.nx a b := by
    intro q hq
    exact ((List.pairwise_cons.mp (List.pairwise_append.mp hpw).2.1).1 q hq).symm
  rw [hsplit]
  unfold runPoints
  rw [List.foldl_append, List.foldl_cons]
  have hkeep : (runPoints cfg l2
        (pointStep cfg a b
          (List.foldl (fun s p => pointStep cfg p.1 p.2 s) initState l1))).b
        (flatId cfg.nx a b) =
      (pointStep cfg a b
        (List.foldl (fun s p => pointStep cfg p.1 p.2 s) initState l1)).b
        (flatId cfg.nx a b) :=
    runPoints_b_ne l2 _ h2
  unfold runPoints at hkeep
  rw [hkeep]
  exact pointStep_b_pinned hpin

lemma pointCoeffs_mem_neighbor {a b ni nj : ℤ}
    (hcase : (ni = a - 1 ∧ nj = b) ∨ (ni = a + 1 ∧ nj = b) ∨ (ni = a ∧ nj = b - 1) ∨
      (ni = a ∧ nj = b + 1))
    (hnp : (isCircleAt cfg a b).1 = false)
    (hni1 : ni ≠ -1) (hni2 : ni ≠ (cfg.nx : ℤ)) (hnj1 : nj ≠ -1) (hnj2 : nj ≠ (cfg.ny : ℤ))
    (hnc : (isCircleAt cfg ni nj).1 = false) :
    (flatId cfg.nx a b, flatId cfg.nx ni nj, (-1 : ℚ)) ∈ pointCoeffs cfg a b := by
  unfold pointCoeffs
  rw [if_neg (by simp [hnp])]
  have hmem : (flatId cfg.nx a b, flatId cfg.nx ni nj, (-1 : ℚ)) ∈
      neighborEmit cfg (flatId cfg.nx a b) ni nj (-1) :=
    mem_neighborEmit.mpr ⟨by push_neg; exact ⟨hni1, hni2, hnj1, hnj2, by simp [hnc]⟩, rfl⟩
  rcases hcase with ⟨rfl, rfl⟩ | ⟨rfl, rfl⟩ | ⟨rfl, rfl⟩ | ⟨rfl, rfl⟩
  · exact List.mem_append_left _ (List.mem_append_left _
      (List.mem_append_left _ (List.mem_append_left _ hmem)))
  · exact List.mem_append_left _ (List.mem_append_left _
      (List.mem_append_left _ (List.mem_append_right _ hmem)))
  · exact List.mem_append_left _ (List.mem_append_left _ (List.mem_append_right _ hmem))
  · exact List.mem_append_left _ (List.mem_append_right _ hmem)

lemma coeffs_swap_mem {r c : ℤ} {w : ℚ} (hrc : r ≠ c)
    (h : (r, c, w) ∈ (buildProblem cfg).coeffs) : (c, r, w) ∈ (buildProblem cfg).coeffs := by
  rw [mem_buildProblem_coeffs] at h ⊢
  obtain ⟨⟨a, b⟩, hp, hu⟩ := h
  obtain ⟨h1, h2⟩ := pointCoeffs_structure hu
  rcases h2 with hdiag | ⟨hnp, ni, nj, hcase, hni1, hni2, hnj1, hnj2, hnc, hu'⟩
  · exact absurd (h1.trans hdiag.symm) hrc
  · injection hu' with hr h'
    injection h' with hc hw
    subst hr hc hw
    have hpr := mem_gridPoints.mp hp
    have hpg : (ni, nj) ∈ gridPoints cfg := by
      rw [mem_gridPoints]
      rcases hcase with ⟨rfl, rfl⟩ | ⟨rfl, rfl⟩ | ⟨rfl, rfl⟩ | ⟨rfl, rfl⟩ <;> omega
    refine ⟨(ni, nj), hpg, pointCoeffs_mem_neighbor ?_ hnc ?_ ?_ ?_ ?_ hnp⟩
    · rcases hcase with ⟨rfl, rfl⟩ | ⟨rfl, rfl⟩ | ⟨rfl, rfl⟩ | ⟨rfl, rfl⟩
      · exact Or.inr (Or.inl ⟨by ring, rfl⟩)
      · exact Or.inl ⟨by ring, rfl⟩
      · exact Or.inr (Or.inr (Or.inr ⟨rfl, by ring⟩))
      · exact Or.inr (Or.inr (Or.inl ⟨rfl, by ring⟩))
    · omega
    · omega
    · omega
    · omega

lemma ccLoop_findIdx (cs : List Circle) :
    ∀ k : ℕ, ccLoop cfg i j cs k =
      match List.findIdx? (inCircleTest cfg i j) cs k with
      | some m => (true, m)
      | none => (false, 0) := by
  induction cs with
  | nil => intro k; simp [ccLoop, List.findIdx?_nil]
  | cons c rest ih =>
      intro k
      by_cases h : inCircleTest cfg i j c = true <;>
        simp only [ccLoop, List.findIdx?_cons, h, if_true, if_false, ih, Bool.false_eq_true,
          if_neg, ite_true, ite_false]

lemma neighborEmit_val {a b : ℤ} : ∀ u ∈ neighborEmit cfg id a b w, u.2.2 = w := by
  intro u hu
  obtain ⟨_, rfl⟩ := mem_neighborEmit.mp hu
  rfl

lemma neighborEmit_length {a b : ℤ} : (neighborEmit cfg id a b w).length ≤ 1 := by
  unfold neighborEmit
  split <;> simp

lemma neighborEmit_abs_sum {a b : ℤ} :
    (((neighborEmit cfg id a b (-1)).map fun u => |u.2.2|).sum) ≤ 1 := by
  unfold neighborEmit
  split <;> simp

lemma col_ne_neighbor (hnx : 0 < (cfg.nx : ℤ)) {ni nj : ℤ}
    (hcase : (ni = i - 1 ∧ nj = j) ∨ (ni = i + 1 ∧ nj = j) ∨ (ni = i ∧ nj = j - 1) ∨
      (ni = i ∧ nj = j + 1)) :
    flatId cfg.nx ni nj ≠ flatId cfg.nx i j := by
  unfold flatId
  rcases hcase with ⟨rfl, rfl⟩ | ⟨rfl, rfl⟩ | ⟨rfl, rfl⟩ | ⟨rfl, rfl⟩ <;> intro h
  · omega
  · omega
  · have : (j - 1) * (cfg.nx : ℤ) = j * (cfg.nx : ℤ) - (cfg.nx : ℤ) := by ring
    omega
  · have : (j + 1) * (cfg.nx : ℤ) = j * (cfg.nx : ℤ) + (cfg.nx : ℤ) := by ring
    omega

lemma mem_key_neighborEmit {a' b' : ℤ} {x : ℤ × ℤ}
    (hx : x ∈ (neighborEmit cfg id a' b' w).map fun u => (u.1, u.2.1)) :
    x = (id, flatId cfg.nx a' b') ∧
      a' ≠ -1 ∧ a' ≠ (cfg.nx : ℤ) ∧ b' ≠ -1 ∧ b' ≠ (cfg.ny : ℤ) := by
  rw [List.mem_map] at hx
  obtain ⟨u, hu, rfl⟩ := hx
  obtain ⟨hc, rfl⟩ := mem_neighborEmit.mp hu
  push_neg at hc
  exact ⟨rfl, hc.1, hc.2.1, hc.2.2.1, hc.2.2.2.1⟩

lemma neighborEmit_key_nodup {a' b' : ℤ} :
    ((neighborEmit cfg id a' b' w).map fun u => (u.1, u.2.1)).Nodup := by
  unfold neighborEmit
  split <;> simp

lemma neighborEmit_key_disjoint {a1 b1 a2 b2 : ℤ} {w1 w2 : ℚ}
    (h : a1 ≠ -1 → a1 ≠ (cfg.nx : ℤ) → b1 ≠ -1 → b1 ≠ (cfg.ny : ℤ) →
      a2 ≠ -1 → a2 ≠ (cfg.nx : ℤ) → b2 ≠ -1 → b2 ≠ (cfg.ny : ℤ) →
      flatId cfg.nx a1 b1 ≠ flatId cfg.nx a2 b2) :
    List.Disjoint ((neighborEmit cfg id a1 b1 w1).map fun u => (u.1, u.2.1))
      ((neighborEmit cfg id a2 b2 w2).map fun u => (u.1, u.2.1)) := by
  intro x hx1 hx2
  obtain ⟨rfl, hc1⟩ := mem_key_neighborEmit hx1
  obtain ⟨hx, hc2⟩ := mem_key_neighborEmit hx2
  injection hx with h1 h2
  exact h hc1.1 hc1.2.1 hc1.2.2.1 hc1.2.2.2 hc2.1 hc2.2.1 hc2.2.2.1 hc2.2.2.2 h2

lemma pointCoeffs_key_nodup {a b : ℤ} (h0 : 0 ≤ a) (h1 : a < (cfg.nx : ℤ))
    (h2 : 0 ≤ b) (h3 : b < (cfg.ny : ℤ)) :
    ((pointCoeffs cfg a b).map fun u => (u.1, u.2.1)).Nodup := by
  by_cases hpin : (isCircleAt cfg a b).1 = true
  · unfold pointCoeffs
    rw [if_pos hpin]
    simp
  · unfold pointCoeffs
    rw [if_neg hpin]
    simp only [List.map_append, List.nodup_append, List.disjoint_append_left]
    repeat' apply And.intro
    all_goals
      first
      | exact neighborEmit_key_nodup
      | (refine neighborEmit_key_disjoint fun hc1a hc1b hc1c hc1d hc2a hc2b hc2c hc2d => ?_
         unfold flatId
         intro h
         have e1 : (b - 1) * (cfg.nx : ℤ) = b * (cfg.nx : ℤ) - (cfg.nx : ℤ) := by ring
         have e2 : (b + 1) * (cfg.nx : ℤ) = b * (cfg.nx : ℤ) + (cfg.nx : ℤ) := by ring
         omega)

end StructuralLemmas

/-- A 2×1 grid on `[0,2]×[0,1]` with boundary voltages `(up,down,left,right) =
(10,20,30,40)` and no inclusions; used as a concrete witness configuration. -/
def cfgOpen : Config := ⟨2, 1, 0, 2, 0, 1, 10, 20, 30, 40, []⟩

/-- A 3×3 grid on `[0,3]×[0,3]`, zero box voltages, and one inclusion of radius
`1` and voltage `5` centered at the origin; its grid point `(0,0)` lies inside
the inclusion.  Used as a concrete witness configuration. -/
def cfgPinned : Config := ⟨3, 3, 0, 3, 0, 3, 0, 0, 0, 0, [⟨0, 0, 1, 5⟩]⟩

/-- C4: the classifier `circularConditionsCheck` computes the physical
coordinates `x = xmin + i*dx`, `y = ymin + j*dy` with `dx = (xmax-xmin)/nx`,
`dy = (ymax-ymin)/ny`, scans the inclusions in list order testing
`(x-x_k)^2 + (y-y_k)^2 ≤ radius_k^2` (boundary counting as inside), and returns
the first matching index, or "not inside any" when none matches: it coincides
with the classifier `specClassify` written from the spec's words. -/
theorem claim_C4_classifier_first_match (cfg : Config) (i j : ℤ) :
    circularConditionsCheck cfg i j = specClassify cfg i j := by
  unfold circularConditionsCheck specClassify
  rw [ccLoop_findIdx]
  rfl

/-- C1: for every configuration with a non-empty inclusion list and every grid
point `(i,j)` (`0 ≤ i < nx`, `0 ≤ j < ny`) classified inside an inclusion, the
assembled row of `id = i + j*nx` is exactly `[(id, id, 1)]` — the unit diagonal
and nothing else, so no other coefficient has row `id` and no neighbor
processing happened for this point — and the final rhs value at `id` is the
voltage of the first-matching inclusion. -/
theorem claim_C1_inclusion_pinning (cfg : Config) (i j : ℤ)
    (hne : cfg.circles ≠ []) (h0 : 0 ≤ i) (h1 : i < (cfg.nx : ℤ))
    (h2 : 0 ≤ j) (h3 : j < (cfg.ny : ℤ))
    (hin : (circularConditionsCheck cfg i j).1 = true) :
    rowOf cfg (flatId cfg.nx i j) =
      [(flatId cfg.nx i j, flatId cfg.nx i j, 1)] ∧
    (buildProblem cfg).b (flatId cfg.nx i j) =
      voltageOf cfg.circles (circularConditionsCheck cfg i j).2 := by
  have hg : (i, j) ∈ gridPoints cfg := mem_gridPoints.mpr ⟨h0, h1, h2, h3⟩
  have hpin : (isCircleAt cfg i j).1 = true := by
    rw [isCircleAt_of_ne hne]; exact hin
  constructor
  · rw [rowOf_eq_pointCoeffs hg]
    unfold pointCoeffs
    rw [if_pos hpin]
  · rw [buildProblem_b_pinned hg hpin, isCircleAt_of_ne hne]

/-- C1 witness: in `cfgPinned` the grid point `(0,0)` lies inside the single
inclusion, its assembled row is the unit diagonal and its rhs value is the
inclusion voltage. -/
theorem claim_C1_inclusion_pinning_witness :
    (cfgPinned.circles ≠ [] ∧ (0 : ℤ) ≤ 0 ∧ (0 : ℤ) < (cfgPinned.nx : ℤ) ∧
      (circularConditionsCheck cfgPinned 0 0).1 = true) ∧
    (rowOf cfgPinned (flatId cfgPinned.nx 0 0) =
        [(flatId cfgPinned.nx 0 0, flatId cfgPinned.nx 0 0, 1)] ∧
      (buildProblem cfgPinned).b (flatId cfgPinned.nx 0 0) =
        voltageOf cfgPinned.circles (circularConditionsCheck cfgPinned 0 0).2) :=
  ⟨⟨by simp [cfgPinned], le_refl 0, by decide,
      by simp [circularConditionsCheck, ccLoop, inCircleTest, gridDx, gridDy, cfgPinned]⟩,
    claim_C1_inclusion_pinning cfgPinned 0 0 (by simp [cfgPinned]) (le_refl 0) (by decide)
      (le_refl 0) (by decide)
      (by simp [circularConditionsCheck, ccLoop, inCircleTest, gridDx, gridDy, cfgPinned])⟩

/-- C2: a neighbor reference one step outside a grid edge (`ni = -1` west,
`ni = nx` east, `nj = -1` north/up, `nj = ny` south/down) makes
`insertCoefficient` add exactly `-w` times the corresponding side's box
boundary voltage (left, right, up, down) to `rhs[id]`, emit no coefficient,
and touch no other rhs entry.  No hypothesis about the classifier is needed:
the box-edge rule takes strict priority even when the out-of-grid location
also lies inside an inclusion. -/
theorem claim_C2_boundary_folding (cfg : Config) (s : AsmState) (id ni nj : ℤ) (w : ℚ) :
    (ni = -1 →
      (insertCoefficient cfg id ni nj w s).coeffs = s.coeffs ∧
      (insertCoefficient cfg id ni nj w s).b id = s.b id - w * cfg.bcLeft ∧
      ∀ t, t ≠ id → (insertCoefficient cfg id ni nj w s).b t = s.b t) ∧
    (ni = (cfg.nx : ℤ) →
      (insertCoefficient cfg id ni nj w s).coeffs = s.coeffs ∧
      (insertCoefficient cfg id ni nj w s).b id = s.b id - w * cfg.bcRight ∧
      ∀ t, t ≠ id → (insertCoefficient cfg id ni nj w s).b t = s.b t) ∧
    (ni ≠ -1 → ni ≠ (cfg.nx : ℤ) → nj = -1 →
      (insertCoefficient cfg id ni nj w s).coeffs = s.coeffs ∧
      (insertCoefficient cfg id ni nj w s).b id = s.b id - w * cfg.bcUp ∧
      ∀ t, t ≠ id → (insertCoefficient cfg id ni nj w s).b t = s.b t) ∧
    (ni ≠ -1 → ni ≠ (cfg.nx : ℤ) → nj = (cfg.ny : ℤ) →
      (insertCoefficient cfg id ni nj w s).coeffs = s.coeffs ∧
      (insertCoefficient cfg id ni nj w s).b id = s.b id - w * cfg.bcDown ∧
      ∀ t, t ≠ id → (insertCoefficient cfg id ni nj w s).b t = s.b t) := by
  refine ⟨?_, ?_, ?_, ?_⟩
  · rintro rfl
    unfold insertCoefficient
    rw [if_pos rfl]
    exact ⟨rfl, by simp [updateB], fun t ht => by simp [updateB, ht]⟩
  · rintro rfl
    have hne : (cfg.nx : ℤ) ≠ -1 := by omega
    unfold insertCoefficient
    rw [if_neg hne, if_pos rfl]
    exact ⟨rfl, by simp [updateB], fun t ht => by simp [updateB, ht]⟩
  · rintro hni1 hni2 rfl
    unfold insertCoefficient
    rw [if_neg hni1, if_neg hni2, if_pos rfl]
    exact ⟨rfl, by simp [updateB], fun t ht => by simp [updateB, ht]⟩
  · rintro hni1 hni2 rfl
    have hne : (cfg.ny : ℤ) ≠ -1 := by omega
    unfold insertCoefficient
    rw [if_neg hni1, if_neg hni2, if_neg hne, if_pos rfl]
    exact ⟨rfl, by simp [updateB], fun t ht => by simp [updateB, ht]⟩

/-- C2 witness: the west-of-grid call `ni = -1` on `cfgOpen` folds the left
boundary voltage into the rhs and emits nothing. -/
theorem claim_C2_boundary_folding_witness :
    (insertCoefficient cfgOpen 0 (-1) 0 (-1) initState).coeffs = initState.coeffs ∧
    (insertCoefficient cfgOpen 0 (-1) 0 (-1) initState).b 0 =
      initState.b 0 - (-1) * cfgOpen.bcLeft ∧
    ∀ t, t ≠ 0 → (insertCoefficient cfgOpen 0 (-1) 0 (-1) initState).b t = initState.b t :=
  (claim_C2_boundary_folding cfgOpen initState 0 (-1) 0 (-1)).1 rfl

/-- C3: the emitted coefficient list is symmetric on off-diagonal entries: for
every valid configuration, `(r,c,w)` with `r ≠ c` is generated iff `(c,r,w)`
is generated. -/
theorem claim_C3_offdiagonal_symmetry (cfg : Config) (hx : 1 ≤ cfg.nx) (hy : 1 ≤ cfg.ny)
    (hxe : cfg.xmin < cfg.xmax) (hye : cfg.ymin < cfg.ymax)
    (r c : ℤ) (w : ℚ) (hrc : r ≠ c) :
    (r, c, w) ∈ (buildProblem cfg).coeffs ↔ (c, r, w) ∈ (buildProblem cfg).coeffs :=
  ⟨coeffs_swap_mem hrc, coeffs_swap_mem (Ne.symm hrc)⟩

/-- C3 witness: on `cfgOpen` the off-diagonal pair `(0,1,-1)` / `(1,0,-1)`
satisfies the symmetry equivalence. -/
theorem claim_C3_offdiagonal_symmetry_witness :
    ((0 : ℤ) ≠ 1) ∧
    (((0 : ℤ), (1 : ℤ), (-1 : ℚ)) ∈ (buildProblem cfgOpen).coeffs ↔
      ((1 : ℤ), (0 : ℤ), (-1 : ℚ)) ∈ (buildProblem cfgOpen).coeffs) :=
  ⟨by decide,
    claim_C3_offdiagonal_symmetry cfgOpen (by decide) (by decide) (by decide) (by decide)
      0 1 (-1) (by decide)⟩

/-- C6: for every grid point not pinned by an inclusion, the self-term call
(`ni = i`, `nj = j`, weight `+4`) reaches the coefficient-emitting branch, the
point's assembled row contains exactly one diagonal coefficient `(id,id,4)`,
all other entries of the row have value `-1`, and there are at most four of
them (so the absolute off-diagonal row sum is at most the diagonal `4`: the row
is diagonally dominant). -/
theorem claim_C6_nonpinned_row (cfg : Config) (i j : ℤ)
    (h0 : 0 ≤ i) (h1 : i < (cfg.nx : ℤ)) (h2 : 0 ≤ j) (h3 : j < (cfg.ny : ℤ))
    (hnp : (isCircleAt cfg i j).1 = false) :
    neighborEmit cfg (flatId cfg.nx i j) i j 4 =
      [(flatId cfg.nx i j, flatId cfg.nx i j, 4)] ∧
    (rowOf cfg (flatId cfg.nx i j)).filter (fun u => u.2.1 = flatId cfg.nx i j) =
      [(flatId cfg.nx i j, flatId cfg.nx i j, 4)] ∧
    (∀ u ∈ rowOf cfg (flatId cfg.nx i j), u.2.1 ≠ flatId cfg.nx i j → u.2.2 = -1) ∧
    ((rowOf cfg (flatId cfg.nx i j)).filter fun u => u.2.1 ≠ flatId cfg.nx i j).length ≤ 4 ∧
    (((rowOf cfg (flatId cfg.nx i j)).filter fun u => u.2.1 ≠ flatId cfg.nx i j).map
        fun u => |u.2.2|).sum ≤ 4 := by
  have hnx : 0 < (cfg.nx : ℤ) := lt_of_le_of_lt h0 h1
  have hg : (i, j) ∈ gridPoints cfg := mem_gridPoints.mpr ⟨h0, h1, h2, h3⟩
  have hA5 : neighborEmit cfg (flatId cfg.nx i j) i j 4 =
      [(flatId cfg.nx i j, flatId cfg.nx i j, 4)] := by
    unfold neighborEmit
    rw [if_neg]
    push_neg
    exact ⟨by omega, by omega, by omega, by omega, by simp [hnp]⟩
  have hW : ∀ u ∈ neighborEmit cfg (flatId cfg.nx i j) (i - 1) j (-1),
      ¬(u.2.1 = flatId cfg.nx i j) := by
    intro u hu
    obtain ⟨_, rfl⟩ := mem_neighborEmit.mp hu
    exact col_ne_neighbor hnx (Or.inl ⟨rfl, rfl⟩)
  have hE : ∀ u ∈ neighborEmit cfg (flatId cfg.nx i j) (i + 1) j (-1),
      ¬(u.2.1 = flatId cfg.nx i j) := by
    intro u hu
    obtain ⟨_, rfl⟩ := mem_neighborEmit.mp hu
    exact col_ne_neighbor hnx (Or.inr (Or.inl ⟨rfl, rfl⟩))
  have hN : ∀ u ∈ neighborEmit cfg (flatId cfg.nx i j) i (j - 1) (-1),
      ¬(u.2.1 = flatId cfg.nx i j) := by
    intro u hu
    obtain ⟨_, rfl⟩ := mem_neighborEmit.mp hu
    exact col_ne_neighbor hnx (Or.inr (Or.inr (Or.inl ⟨rfl, rfl⟩)))
  have hS : ∀ u ∈ neighborEmit cfg (flatId cfg.nx i j) i (j + 1) (-1),
      ¬(u.2.1 = flatId cfg.nx i j) := by
    intro u hu
    obtain ⟨_, rfl⟩ := mem_neighborEmit.mp hu
    exact col_ne_neighbor hnx (Or.inr (Or.inr (Or.inr ⟨rfl, rfl⟩)))
  have hrow : rowOf cfg (flatId cfg.nx i j) =
      neighborEmit cfg (flatId cfg.nx i j) (i - 1) j (-1) ++
        neighborEmit cfg (flatId cfg.nx i j) (i + 1) j (-1) ++
        neighborEmit cfg (flatId cfg.nx i j) i (j - 1) (-1) ++
        neighborEmit cfg (flatId cfg.nx i j) i (j + 1) (-1) ++
        neighborEmit cfg (flatId cfg.nx i j) i j 4 := by
    rw [rowOf_eq_pointCoeffs hg]
    simp only [pointCoeffs, hnp, Bool.false_eq_true, if_false]
  have hoff : (rowOf cfg (flatId cfg.nx i j)).filter
        (fun u => u.2.1 ≠ flatId cfg.nx i j) =
      neighborEmit cfg (flatId cfg.nx i j) (i - 1) j (-1) ++
        neighborEmit cfg (flatId cfg.nx i j) (i + 1) j (-1) ++
        neighborEmit cfg (flatId cfg.nx i j) i (j - 1) (-1) ++
        neighborEmit cfg (flatId cfg.nx i j) i (j + 1) (-1) := by
    rw [hrow]
    simp only [List.filter_append]
    rw [List.filter_eq_self.mpr fun u hu => by simpa using hW u hu,
      List.filter_eq_self.mpr fun u hu => by simpa using hE u hu,
      List.filter_eq_self.mpr fun u hu => by simpa using hN u hu,
      List.filter_eq_self.mpr fun u hu => by simpa using hS u hu,
      hA5]
    simp
  refine ⟨hA5, ?_, ?_, ?_, ?_⟩
  · rw [hrow]
    simp only [List.filter_append]
    rw [List.filter_eq_nil_iff.mpr fun u hu => by simpa using hW u hu,
      List.filter_eq_nil_iff.mpr fun u hu => by simpa using hE u hu,
      List.filter_eq_nil_iff.mpr fun u hu => by simpa using hN u hu,
      List.filter_eq_nil_iff.mpr fun u hu => by simpa using hS u hu,
      hA5]
    simp
  · rw [hrow]
    intro u hu hune
    simp only [List.mem_append] at hu
    rcases hu with ((((hu | hu) | hu) | hu) | hu)
    · exact neighborEmit_val u hu
    · exact neighborEmit_val u hu
    · exact neighborEmit_val u hu
    · exact neighborEmit_val u hu
    · rw [hA5, List.mem_singleton] at hu
      subst hu
      exact absurd rfl hune
  · rw [hoff]
    simp only [List.length_append]
    have l1 : (neighborEmit cfg (flatId cfg.nx i j) (i - 1) j (-1)).length ≤ 1 :=
      neighborEmit_length
    have l2 : (neighborEmit cfg (flatId cfg.nx i j) (i + 1) j (-1)).length ≤ 1 :=
      neighborEmit_length
    have l3 : (neighborEmit cfg (flatId cfg.nx i j) i (j - 1) (-1)).length ≤ 1 :=
      neighborEmit_length
    have l4 : (neighborEmit cfg (flatId cfg.nx i j) i (j + 1) (-1)).length ≤ 1 :=
      neighborEmit_length
    omega
  · rw [hoff]
    simp only [List.map_append, List.sum_append]
    have l1 : (((neighborEmit cfg (flatId cfg.nx i j) (i - 1) j (-1)).map
        fun u => |u.2.2|).sum) ≤ 1 := neighborEmit_abs_sum
    have l2 : (((neighborEmit cfg (flatId cfg.nx i j) (i + 1) j (-1)).map
        fun u => |u.2.2|).sum) ≤ 1 := neighborEmit_abs_sum
    have l3 : (((neighborEmit cfg (flatId cfg.nx i j) i (j - 1) (-1)).map
        fun u => |u.2.2|).sum) ≤ 1 := neighborEmit_abs_sum
    have l4 : (((neighborEmit cfg (flatId cfg.nx i j) i (j + 1) (-1)).map
        fun u => |u.2.2|).sum) ≤ 1 := neighborEmit_abs_sum
    linarith

/-- C6 witness: on `cfgOpen` (no inclusions) the point `(0,0)` is not pinned
and its assembled row satisfies all the row guarantees. -/
theorem claim_C6_nonpinned_row_witness :
    neighborEmit cfgOpen (flatId cfgOpen.nx 0 0) 0 0 4 =
      [(flatId cfgOpen.nx 0 0, flatId cfgOpen.nx 0 0, 4)] ∧
    (rowOf cfgOpen (flatId cfgOpen.nx 0 0)).filter (fun u => u.2.1 = flatId cfgOpen.nx 0 0) =
      [(flatId cfgOpen.nx 0 0, flatId cfgOpen.nx 0 0, 4)] ∧
    (∀ u ∈ rowOf cfgOpen (flatId cfgOpen.nx 0 0),
      u.2.1 ≠ flatId cfgOpen.nx 0 0 → u.2.2 = -1) ∧
    ((rowOf cfgOpen (flatId cfgOpen.nx 0 0)).filter
        fun u => u.2.1 ≠ flatId cfgOpen.nx 0 0).length ≤ 4 ∧
    (((rowOf cfgOpen (flatId cfgOpen.nx 0 0)).filter
          fun u => u.2.1 ≠ flatId cfgOpen.nx 0 0).map
        fun u => |u.2.2|).sum ≤ 4 :=
  claim_C6_nonpinned_row cfgOpen 0 0 (le_refl 0) (by decide) (le_refl 0) (by decide) rfl

/-- C8: assembly is deterministic — on equal inputs, `buildProblem` produces
equal coefficient lists (same entries in the same order) and equal rhs
vectors. -/
theorem claim_C8_deterministic (cfg cfg' : Config) (h : cfg = cfg') :
    (buildProblem cfg).coeffs = (buildProblem cfg').coeffs ∧
      ∀ t, (buildProblem cfg).b t = (buildProblem cfg').b t := by
  subst h
  exact ⟨rfl, fun _ => rfl⟩

/-- C8 witness: two runs of assembly on `cfgOpen` agree. -/
theorem claim_C8_deterministic_witness :
    (buildProblem cfgOpen).coeffs = (buildProblem cfgOpen).coeffs ∧
      ∀ t, (buildProblem cfgOpen).b t = (buildProblem cfgOpen).b t :=
  claim_C8_deterministic cfgOpen cfgOpen rfl

/-- C5: on a 1×1 grid with no inclusions, for any extents and any box boundary
voltages, assembly produces exactly the single coefficient `(0,0,4)` and
`rhs[0] = left + right + up + down`. -/
theorem claim_C5_unit_grid (xmin xmax ymin ymax up down left right : ℚ) :
    (buildProblem (Config.mk 1 1 xmin xmax ymin ymax up down left right [])).coeffs =
      [(0, 0, 4)] ∧
    (buildProblem (Config.mk 1 1 xmin xmax ymin ymax up down left right [])).b 0 =
      left + right + up + down := by
  constructor
  · simp [buildProblem, List.range_succ, List.range_zero, pointStep, insertCoefficient,
      isCircleAt, updateB, flatId, initState]
  · simp [buildProblem, List.range_succ, List.range_zero, pointStep, insertCoefficient,
      isCircleAt, updateB, flatId, initState]

/-- C7: the flattening `id = i + j*nx` maps the grid index rectangle bijectively
onto `{0, …, nx*ny - 1}` (bounds, injectivity, surjectivity), and the output
reshape `result[j][i] = solution[i + j*nx]` reads back exactly the flattened
entry, so reshaping inverts the flattening. -/
theorem claim_C7_flatten_bijection (nx ny : ℕ) (hx : 0 < nx) (hy : 0 < ny) :
    (∀ i j : ℤ, 0 ≤ i → i < (nx : ℤ) → 0 ≤ j → j < (ny : ℤ) →
      0 ≤ flatId nx i j ∧ flatId nx i j < (nx : ℤ) * (ny : ℤ)) ∧
    (∀ i j i' j' : ℤ, 0 ≤ i → i < (nx : ℤ) → 0 ≤ j → j < (ny : ℤ) →
      0 ≤ i' → i' < (nx : ℤ) → 0 ≤ j' → j' < (ny : ℤ) →
      flatId nx i j = flatId nx i' j' → i = i' ∧ j = j') ∧
    (∀ d : ℤ, 0 ≤ d → d < (nx : ℤ) * (ny : ℤ) →
      ∃ i j : ℤ, 0 ≤ i ∧ i < (nx : ℤ) ∧ 0 ≤ j ∧ j < (ny : ℤ) ∧ flatId nx i j = d) ∧
    (∀ (sol : ℤ → ℚ) (i j : ℕ), reshape nx sol j i = sol (flatId nx (i : ℤ) (j : ℤ))) := by
  refine ⟨?_, ?_, ?_, ?_⟩
  · intro i j h0 h1 h2 h3
    exact flatId_bounds h0 h1 h2 h3
  · intro i j i' j' h0 h1 h2 h3 h0' h1' h2' h3' h
    exact flatId_inj h0 h1 h2 h3 h0' h1' h2' h3' h
  · intro d h0 h1
    exact flatId_surj h0 h1
  · intro sol i j
    rfl

/-- C7 witness: on a 2×2 grid, the flat index of `(1,1)` is in `[0,4)` and the
reshape of a concrete solution function reads it back. -/
theorem claim_C7_flatten_bijection_witness :
    (0 ≤ flatId 2 1 1 ∧ flatId 2 1 1 < ((2 : ℕ) : ℤ) * ((2 : ℕ) : ℤ)) ∧
    reshape 2 (fun t => (t : ℚ)) 1 1 = (fun t => (t : ℚ)) (flatId 2 ((1 : ℕ) : ℤ) ((1 : ℕ) : ℤ)) :=
  ⟨(claim_C7_flatten_bijection 2 2 (by decide) (by decide)).1 1 1
      (by decide) (by decide) (by decide) (by decide),
    (claim_C7_flatten_bijection 2 2 (by decide) (by decide)).2.2.2 (fun t => (t : ℚ)) 1 1⟩

/-- C9: for every configuration the emitted coefficient list contains no two
entries with the same `(row, column)` pair — each (center, neighbor-or-self)
slot produces at most one triplet, so the solver's duplicate-summing behaviour
is never exercised. -/
theorem claim_C9_no_duplicate_positions (cfg : Config) :
    ((buildProblem cfg).coeffs.map fun u => (u.1, u.2.1)).Nodup := by
  rw [buildProblem_coeffs, List.map_flatMap, List.nodup_flatMap]
  constructor
  · rintro ⟨a, b⟩ hp
    obtain ⟨h0, h1, h2, h3⟩ := mem_gridPoints.mp hp
    exact pointCoeffs_key_nodup h0 h1 h2 h3
  · refine List.Pairwise.imp ?_ gridPoints_pairwise_ids
    rintro ⟨a, b⟩ ⟨a', b'⟩ hne x hx1 hx2
    rw [List.mem_map] at hx1 hx2
    obtain ⟨u, hu, rfl⟩ := hx1
    obtain ⟨v, hv, hk⟩ := hx2
    apply hne
    show flatId cfg.nx a b = flatId cfg.nx a' b'
    rw [← pointCoeffs_row u hu, ← pointCoeffs_row v hv]
    exact (congrArg Prod.fst hk).symm

/-- C10: every emitted coefficient has row and column indices in `[0, nx*ny)`,
and every rhs write (recorded in the ghost trace `bwrites`) targets an index in
`[0, nx*ny)`: all matrix-triplet and rhs accesses are in bounds for a system of
dimension `nx*ny`. -/
theorem claim_C10_index_bounds (cfg : Config) (hx : 1 ≤ cfg.nx) (hy : 1 ≤ cfg.ny) :
    (∀ u ∈ (buildProblem cfg).coeffs,
      (0 ≤ u.1 ∧ u.1 < (cfg.nx : ℤ) * (cfg.ny : ℤ)) ∧
        (0 ≤ u.2.1 ∧ u.2.1 < (cfg.nx : ℤ) * (cfg.ny : ℤ))) ∧
    (∀ t ∈ (buildProblem cfg).bwrites,
      0 ≤ t ∧ t < (cfg.nx : ℤ) * (cfg.ny : ℤ)) := by
  constructor
  · intro u hu
    rw [mem_buildProblem_coeffs] at hu
    obtain ⟨⟨a, b⟩, hp, hu⟩ := hu
    obtain ⟨ha0, ha1, hb0, hb1⟩ := mem_gridPoints.mp hp
    obtain ⟨h1, h2⟩ := pointCoeffs_structure hu
    have hrow : 0 ≤ flatId cfg.nx a b ∧ flatId cfg.nx a b < (cfg.nx : ℤ) * (cfg.ny : ℤ) :=
      flatId_bounds ha0 ha1 hb0 hb1
    refine ⟨h1 ▸ hrow, ?_⟩
    rcases h2 with hdiag | ⟨_, ni, nj, hcase, hni1, hni2, hnj1, hnj2, _, rfl⟩
    · exact hdiag ▸ hrow
    · have hr : 0 ≤ ni ∧ ni < (cfg.nx : ℤ) ∧ 0 ≤ nj ∧ nj < (cfg.ny : ℤ) := by
        rcases hcase with ⟨rfl, rfl⟩ | ⟨rfl, rfl⟩ | ⟨rfl, rfl⟩ | ⟨rfl, rfl⟩ <;> omega
      exact flatId_bounds hr.1 hr.2.1 hr.2.2.1 hr.2.2.2
  · intro t ht
    rw [buildProblem_bwrites, List.mem_flatMap] at ht
    obtain ⟨⟨a, b⟩, hp, ht⟩ := ht
    obtain ⟨ha0, ha1, hb0, hb1⟩ := mem_gridPoints.mp hp
    rw [pointWrites_sub t ht]
    exact flatId_bounds ha0 ha1 hb0 hb1

/-- C10 witness: on `cfgOpen` all coefficient indices and rhs writes are in
bounds. -/
theorem claim_C10_index_bounds_witness :
    (∀ u ∈ (buildProblem cfgOpen).coeffs,
      (0 ≤ u.1 ∧ u.1 < (cfgOpen.nx : ℤ) * (cfgOpen.ny : ℤ)) ∧
        (0 ≤ u.2.1 ∧ u.2.1 < (cfgOpen.nx : ℤ) * (cfgOpen.ny : ℤ))) ∧
    (∀ t ∈ (buildProblem cfgOpen).bwrites,
      0 ≤ t ∧ t < (cfgOpen.nx : ℤ) * (cfgOpen.ny : ℤ)) :=
  claim_C10_index_bounds cfgOpen (by decide) (by decide)

end MultigridSolver
